import Mathlib

/-!
Verification of the InkSync collaborative-canvas core: the per-room drawing
ledger (`DrawingStateManager`, `src/unnamed/part_001`) and the synchronization
authority's validation and intent handlers (`src/server/server.js`).

The JavaScript data is modelled shallowly:
* JS numbers are modelled as `JSNumber`: either a finite rational or one of
  `nan`, `posInf`, `negInf`.  The validation logic only uses `typeof`,
  `isFinite` and order comparisons, all of which are captured exactly on the
  values the claims mention (integers and small decimals are exactly
  representable doubles, so rational arithmetic agrees with the double
  arithmetic the code performs on them).
* JS values are modelled as `JSVal`; a JS object is an insertion-ordered
  association list of string keys, with property assignment overwriting in
  place and `delete` removing the key, exactly as JS objects behave.
* Fallible JS code (property access on `null`/`undefined` throws a
  `TypeError`) is modelled in `Except Unit`.
-/

namespace InkSync

/-- A JavaScript number: a finite value (modelled as a rational) or one of the
three non-finite values `NaN`, `Infinity`, `-Infinity`. -/
inductive JSNumber where
  | finite (q : ℚ)
  | nan
  | posInf
  | negInf
deriving DecidableEq

/-- `isFinite` on a JS number. -/
def JSNumber.isFinite : JSNumber → Bool
  | .finite _ => true
  | _ => false

/-- The JS `<` comparison on numbers: any comparison involving `NaN` is
`false`; infinities compare in the usual order. -/
def jsNumLt : JSNumber → JSNumber → Bool
  | .nan, _ => false
  | _, .nan => false
  | .finite a, .finite b => decide (a < b)
  | .finite _, .posInf => true
  | .finite _, .negInf => false
  | .posInf, _ => false
  | .negInf, .negInf => false
  | .negInf, _ => true

/-- A JavaScript value as delivered over the event channel.  Objects are
insertion-ordered association lists with (in practice unique) string keys. -/
inductive JSVal where
  | null
  | undefined
  | bool (b : Bool)
  | num (n : JSNumber)
  | str (s : String)
  | arr (elems : List JSVal)
  | obj (fields : List (String × JSVal))

/-- JS `typeof` (note `typeof null` is `"object"`, and arrays are objects). -/
def jsTypeof : JSVal → String
  | .null => "object"
  | .undefined => "undefined"
  | .bool _ => "boolean"
  | .num _ => "number"
  | .str _ => "string"
  | .arr _ => "object"
  | .obj _ => "object"

/-- JS truthiness: `null`, `undefined`, `false`, `0`, `NaN` and `""` are
falsy, everything else (including every object and array) is truthy. -/
def jsTruthy : JSVal → Bool
  | .null => false
  | .undefined => false
  | .bool b => b
  | .num (.finite q) => q != 0
  | .num .nan => false
  | .num _ => true
  | .str s => s != ""
  | .arr _ => true
  | .obj _ => true

/-- JS object property assignment `m[k] = v`: overwrite in place if the key is
present, otherwise append the new key at the end (JS objects preserve
insertion order of keys). -/
def jsSet {β : Type} : List (String × β) → String → β → List (String × β)
  | [], k, v => [(k, v)]
  | p :: m, k, v => if p.1 == k then (k, v) :: m else p :: jsSet m k v

/-- JS object property read `m[k]`, `none` meaning `undefined`. -/
def jsGet {β : Type} : List (String × β) → String → Option β
  | [], _ => none
  | p :: m, k => if p.1 == k then some p.2 else jsGet m k

/-- JS `delete m[k]`. -/
def jsDelete {β : Type} : List (String × β) → String → List (String × β)
  | [], _ => []
  | p :: m, k => if p.1 == k then jsDelete m k else p :: jsDelete m k

/-- Property access on an arbitrary (non-`null`, non-`undefined`) JS value;
access on primitives and arrays yields `undefined` for every property name the
server reads. -/
def jsAccess : JSVal → String → JSVal
  | .obj f, k => (jsGet f k).getD .undefined
  | _, _ => .undefined

/-- Property access as the partial JS operation it is: reading a property of
`null` or `undefined` throws a `TypeError`. -/
def getField (v : JSVal) (k : String) : Except Unit JSVal :=
  match v with
  | .null => .error ()
  | .undefined => .error ()
  | v => .ok (jsAccess v k)

/-! ## Operation validation (`validateDrawingData`, src/server/server.js:22-49) -/

/-- One character of `[0-9A-Fa-f]`. -/
def isHexDigit (c : Char) : Bool :=
  ('0' ≤ c && c ≤ '9') || ('A' ≤ c && c ≤ 'F') || ('a' ≤ c && c ≤ 'f')

/-- The regex `^#[0-9A-Fa-f]\x7b6\x7d$` of src/server/server.js:39. -/
def isHexColor (s : String) : Bool :=
  match s.toList with
  | '#' :: rest => rest.length == 6 && rest.all isHexDigit
  | _ => false

/-- `const validTools = ['brush', 'eraser']` (src/server/server.js:30). -/
def validTools : List String := ["brush", "eraser"]

/-- `isFinite` applied to an already-`typeof`-checked number value. -/
def jsIsFiniteNum : JSVal → Bool
  | .num n => n.isFinite
  | _ => false

/-- The body of the `for (const point of data.points)` loop
(src/server/server.js:43-46): `point.x` / `point.y` throw when `point` is
`null` or `undefined`; otherwise the point is rejected unless both coordinates
are finite numbers. -/
def checkPoint (point : JSVal) : Except Unit Bool :=
  match getField point "x", getField point "y" with
  | .error e, _ => .error e
  | _, .error e => .error e
  | .ok x, .ok y =>
    if jsTypeof x != "number" || jsTypeof y != "number" then .ok false
    else if !(jsIsFiniteNum x) || !(jsIsFiniteNum y) then .ok false
    else .ok true

/-- The whole points loop: first rejection wins, otherwise all points pass. -/
def checkPoints : List JSVal → Except Unit Bool
  | [] => .ok true
  | point :: rest =>
    match checkPoint point with
    | .error e => .error e
    | .ok false => .ok false
    | .ok true => checkPoints rest

/-- `validateDrawingData` (src/server/server.js:22-49), transcribed check by
check.  After the initial `!data || typeof data !== 'object'` guard the
receiver is an object or an array, so the remaining `data.xxx` reads cannot
throw and are modelled with the total `jsAccess`; each `typeof`-guard match
arm mirrors the corresponding `return false`. -/
def validateDrawingData (data : JSVal) : Except Unit Bool :=
  if !(jsTruthy data) || jsTypeof data != "object" then .ok false
  else match jsAccess data "points" with
  | .arr points =>
    if points.length == 0 then .ok false
    else match jsAccess data "tool" with
    | .str tool =>
      match jsAccess data "strokeWidth" with
      | .num strokeWidth =>
        if !(validTools.contains tool) then .ok false
        else if jsNumLt strokeWidth (.finite 1) || jsNumLt (.finite 50) strokeWidth then
          .ok false
        else if tool != "eraser" then
          match jsAccess data "color" with
          | .str color =>
            if !(isHexColor color) then .ok false
            else checkPoints points
          | _ => .ok false
        else checkPoints points
      | _ => .ok false
    | _ => .ok false
  | _ => .ok false

/-! ## The per-room drawing ledger (`DrawingStateManager`, src/unnamed/part_001)

The manager keys its id→position cache `operationIndex` by `operation.id`;
operations are duck-typed, so the embedding is generic over the element type
`α` together with the id projection `idOf`.  JS `push`/`pop` work at the end
of an array, so stacks grow at the tail of the Lean lists. -/

/-- One room's state (`_getRoomState`, src/unnamed/part_001:14-23). -/
structure RoomState (α : Type) where
  operations : List α
  undoStack : List α
  operationIndex : List (String × Nat)

/-- The freshly initialized room state of `_getRoomState`. -/
def emptyRoomState (α : Type) : RoomState α := ⟨[], [], []⟩

section Ledger

variable {α : Type} (idOf : α → String)

/-- `addOperation` (src/unnamed/part_001:28-40): clear `undoStack`, push the
operation, record `operations.length - 1` in the index, return the
operation. -/
def addOperation (s : RoomState α) (operation : α) : α × RoomState α :=
  let ops := s.operations ++ [operation]
  (operation,
    { operations := ops,
      undoStack := [],
      operationIndex := jsSet s.operationIndex (idOf operation) (ops.length - 1) })

/-- `undo` (src/unnamed/part_001:46-63): `null` when `operations` is empty;
otherwise pop the last operation, push it on `undoStack`, delete its index
entry, and return it. -/
def undo (s : RoomState α) : Option α × RoomState α :=
  match s.operations.getLast? with
  | none => (none, s)
  | some operation =>
    (some operation,
      { operations := s.operations.dropLast,
        undoStack := s.undoStack ++ [operation],
        operationIndex := jsDelete s.operationIndex (idOf operation) })

/-- `redo` (src/unnamed/part_001:69-84): `null` when `undoStack` is empty;
otherwise pop `undoStack`, push the operation back onto `operations`, and
re-index it at the new tail. -/
def redo (s : RoomState α) : Option α × RoomState α :=
  match s.undoStack.getLast? with
  | none => (none, s)
  | some operation =>
    let ops := s.operations ++ [operation]
    (some operation,
      { operations := ops,
        undoStack := s.undoStack.dropLast,
        operationIndex := jsSet s.operationIndex (idOf operation) (ops.length - 1) })

/-- `clearState` (src/unnamed/part_001:96-101). -/
def clearState (_s : RoomState α) : RoomState α :=
  { operations := [], undoStack := [], operationIndex := [] }

/-- `getOperation` (src/unnamed/part_001:106-115): index lookup, then array
read (which yields `undefined` when out of range). -/
def getOperation (s : RoomState α) (operationId : String) : Option α :=
  match jsGet s.operationIndex operationId with
  | some i => s.operations[i]?
  | none => none

/-- `_rebuildIndex` (src/unnamed/part_001:136-141): start from an empty
object and assign `op.id → index` for each operation in order. -/
def rebuildAux : List α → Nat → List (String × Nat) → List (String × Nat)
  | [], _, m => m
  | op :: rest, i, m => rebuildAux rest (i + 1) (jsSet m (idOf op) i)

/-- `_rebuildIndex` applied to an operations list. -/
def rebuildIndex (ops : List α) : List (String × Nat) :=
  rebuildAux idOf ops 0 []

/-- `removeOperation` (src/unnamed/part_001:120-131): no-op when the id is
absent from the index; otherwise `splice` the operation out and rebuild the
index (the `delete` of the key is subsumed by the full rebuild). -/
def removeOperation (s : RoomState α) (operationId : String) : RoomState α :=
  match jsGet s.operationIndex operationId with
  | none => s
  | some i =>
    let ops := s.operations.eraseIdx i
    { operations := ops,
      undoStack := s.undoStack,
      operationIndex := rebuildIndex idOf ops }

/-! ### Command sequences over one room's ledger -/

/-- One mutating call on a room ledger. -/
inductive Cmd (α : Type) where
  | add (op : α)
  | undoCmd
  | redoCmd
  | remove (operationId : String)
  | clearCmd

/-- Apply one command to the state (return values discarded). -/
def stepCmd (s : RoomState α) : Cmd α → RoomState α
  | .add op => (addOperation idOf s op).2
  | .undoCmd => (undo idOf s).2
  | .redoCmd => (redo idOf s).2
  | .remove operationId => removeOperation idOf s operationId
  | .clearCmd => clearState s

/-- Run a command sequence left to right. -/
def execCmds : List (Cmd α) → RoomState α → RoomState α
  | [], s => s
  | c :: cs, s => execCmds cs (stepCmd idOf s c)

/-- The ids carried by the `add` commands of a sequence, in order. -/
def addIds : List (Cmd α) → List String
  | [] => []
  | .add op :: cs => idOf op :: addIds cs
  | _ :: cs => addIds cs

/-- All ids currently held by a room state (log plus undo stack). -/
def stateIds (s : RoomState α) : List String :=
  (s.operations ++ s.undoStack).map idOf

/-- The internal well-formedness the ledger maintains: the index is exactly
the rebuild of the log, and no id is duplicated across log and undo stack. -/
def LedgerInv (s : RoomState α) : Prop :=
  s.operationIndex = rebuildIndex idOf s.operations ∧ (stateIds idOf s).Nodup

end Ledger

/-! ## The synchronization authority (socket handlers, src/server/server.js)

Broadcasts are modelled symbolically: `socket.to(roomId).emit(...)` reaches
every member of the sender's room except the sender, `io.to(roomId).emit(...)`
reaches every member including the sender.  The sender's connection id, the
`Date.now()` tick and the `Math.random()` rendering are impure inputs passed
as parameters. -/

/-- One outbound broadcast produced while serving an intent. -/
inductive Emit where
  | toRoomExceptSender (event : String) (args : List JSVal)
  | toRoomAll (event : String) (args : List JSVal)

/-- The id key under which the manager caches a server-stamped operation;
every operation the server appends carries a string `id`. -/
def jsIdOf (op : JSVal) : String :=
  match jsAccess op "id" with
  | .str s => s
  | _ => ""

/-- The id template of src/server/server.js:107 with the impure
pieces (`Date.now()`, `Math.random()` rendering) as parameters. -/
def genOpId (senderId : String) (now : Int) (rand : String) : String :=
  senderId ++ "-" ++ toString now ++ "-" ++ rand

/-- The own fields spread by `...data`; the validator only accepts plain
objects, so the other arms are unreachable on the draw path. -/
def objFields : JSVal → List (String × JSVal)
  | .obj f => f
  | _ => []

/-- The operation literal of src/server/server.js:103-108: spread the client
payload, then overwrite `userId`, `timestamp` and `id` with authority-assigned
values (both `Date.now()` calls are modelled as the same ingestion tick). -/
def stampOperation (senderId : String) (now : Int) (rand : String) (data : JSVal) : JSVal :=
  .obj (jsSet (jsSet (jsSet (objFields data)
          "userId" (.str senderId))
          "timestamp" (.num (.finite (now : ℚ))))
          "id" (.str (genOpId senderId now rand)))

/-- The `draw` handler (src/server/server.js:92-114) acting on the sender's
room state: invalid data is dropped (the `console.warn` is external logging);
valid data is stamped, appended, and broadcast to the room minus the
sender. -/
def handleDraw (senderId : String) (now : Int) (rand : String)
    (s : RoomState JSVal) (data : JSVal) : Except Unit (RoomState JSVal × List Emit) :=
  match validateDrawingData data with
  | .error e => .error e
  | .ok false => .ok (s, [])
  | .ok true =>
    let operation := stampOperation senderId now rand data
    .ok ((addOperation jsIdOf s operation).2,
         [Emit.toRoomExceptSender "draw" [operation]])

/-- The `undo` handler (src/server/server.js:130-142): broadcast
`(operationId)` to the whole room only when the ledger undid something. -/
def handleUndo (s : RoomState JSVal) : RoomState JSVal × List Emit :=
  match undo jsIdOf s with
  | (some operation, s') =>
    (s', [Emit.toRoomAll "undo" [.obj [("operationId", jsAccess operation "id")]]])
  | (none, s') => (s', [])

/-- The `redo` handler (src/server/server.js:145-157): broadcast the full
reinstated operation to the whole room only when the ledger redid
something. -/
def handleRedo (s : RoomState JSVal) : RoomState JSVal × List Emit :=
  match redo jsIdOf s with
  | (some operation, s') =>
    (s', [Emit.toRoomAll "redo" [.obj [("operation", operation)]]])
  | (none, s') => (s', [])

/-- The `clear-canvas` handler (src/server/server.js:160-168): always clears
and always broadcasts the payload-free clear signal to the whole room. -/
def handleClearCanvas (s : RoomState JSVal) : RoomState JSVal × List Emit :=
  (clearState s, [Emit.toRoomAll "clear-canvas" []])

/-! ## Spec-side validation predicate (spec §4.1, claim C4)

`specAccepts` transcribes the claim's acceptance condition word for word:
points non-empty with finite numeric coordinates, tool in the closed
enumeration, `strokeWidth` numeric and inside the closed interval `[1, 50]`,
and a 6-hex-digit color required exactly when the tool is not the eraser.
`specAcceptsJS` is the same predicate with the stroke-width clause replaced by
the JS comparison semantics the code actually implements (`NaN` passes both
`< 1` and `> 50` checks vacuously). -/

/-- Spec reading of one point: finite numeric `x` and `y` coordinates. -/
def specPoint (p : JSVal) : Bool :=
  match jsAccess p "x", jsAccess p "y" with
  | .num (.finite _), .num (.finite _) => true
  | _, _ => false

/-- Spec reading of the points clause: a non-empty sequence of valid points. -/
def specPointsOK (d : JSVal) : Bool :=
  match jsAccess d "points" with
  | .arr pts => !pts.isEmpty && pts.all specPoint
  | _ => false

/-- Spec reading of the tool and color clauses: tool in the closed
enumeration, and unless the tool is the eraser, a `#`+6-hex-digit color. -/
def specToolColorOK (d : JSVal) : Bool :=
  match jsAccess d "tool" with
  | .str t =>
    (t == "brush" || t == "eraser") &&
    (t == "eraser" ||
      (match jsAccess d "color" with
       | .str c => isHexColor c
       | _ => false))
  | _ => false

/-- Claim C4's stroke-width clause: numeric and inside `[1, 50]`. -/
def specStrokeWidthOK (d : JSVal) : Bool :=
  match jsAccess d "strokeWidth" with
  | .num (.finite w) => decide (1 ≤ w) && decide (w ≤ 50)
  | _ => false

/-- The stroke-width clause the code implements: a number rejected only when
the JS comparisons `< 1` or `> 50` hold (both are false for `NaN`). -/
def specStrokeWidthJS (d : JSVal) : Bool :=
  match jsAccess d "strokeWidth" with
  | .num w => !(jsNumLt w (.finite 1)) && !(jsNumLt (.finite 50) w)
  | _ => false

/-- Whether a JS value is a plain object (a "candidate record"). -/
def isObj : JSVal → Bool
  | .obj _ => true
  | _ => false

/-- Claim C4's acceptance condition, as stated. -/
def specAccepts (d : JSVal) : Bool :=
  isObj d && specPointsOK d && specToolColorOK d && specStrokeWidthOK d

/-- The amended acceptance condition (JS comparison semantics for the
stroke width). -/
def specAcceptsJS (d : JSVal) : Bool :=
  isObj d && specPointsOK d && specToolColorOK d && specStrokeWidthJS d

/-! ### Concrete records used by counterexamples and witnesses -/

/-- A single well-formed point at the origin. -/
def pointZero : JSVal :=
  .obj [("x", .num (.finite 0)), ("y", .num (.finite 0))]

/-- A brush record that is valid except that its stroke width is `NaN`:
`typeof NaN === 'number'`, and `NaN < 1` and `NaN > 50` are both false, so
`validateDrawingData` accepts it although `NaN` is not inside `[1, 50]`. -/
def nanWidthRecord : JSVal :=
  .obj [("points", .arr [pointZero]),
        ("tool", .str "brush"),
        ("color", .str "#112233"),
        ("strokeWidth", .num .nan)]

/-- The fields of a fully valid brush record. -/
def validBrushFields : List (String × JSVal) :=
  [("points", .arr [pointZero]),
   ("tool", .str "brush"),
   ("color", .str "#AbC123"),
   ("strokeWidth", .num (.finite 5))]

/-- A fully valid brush record. -/
def validBrushRecord : JSVal := .obj validBrushFields

/-- A brush record with stroke width `w` and otherwise valid fields. -/
def widthRecord (w : JSNumber) : JSVal :=
  .obj [("points", .arr [pointZero]),
        ("tool", .str "brush"),
        ("color", .str "#112233"),
        ("strokeWidth", .num w)]

/-- A brush record with color `c` and otherwise valid fields. -/
def colorRecord (c : String) : JSVal :=
  .obj [("points", .arr [pointZero]),
        ("tool", .str "brush"),
        ("color", .str c),
        ("strokeWidth", .num (.finite 5))]

/-- An eraser record with no `color` field at all. -/
def eraserNoColorRecord : JSVal :=
  .obj [("points", .arr [pointZero]),
        ("tool", .str "eraser"),
        ("strokeWidth", .num (.finite 5))]

/-- A valid brush record that also carries client-supplied `id`, `userId`,
`timestamp` and an unknown extra field. -/
def spoofedBrushRecord : JSVal :=
  .obj [("points", .arr [pointZero]),
        ("tool", .str "brush"),
        ("color", .str "#AbC123"),
        ("strokeWidth", .num (.finite 5)),
        ("id", .str "spoofed-id"),
        ("userId", .str "spoofed-user"),
        ("timestamp", .num (.finite 42)),
        ("extraField", .str "extra")]

/-- Identity id assignment used by concrete witness scenarios over plain
string operations. -/
def idSelf : String → String := fun s => s

/-- A command scenario exercising every ledger call, with pairwise distinct
appended ids. -/
def sampleCmds : List (Cmd String) :=
  [.add "a", .add "b", .undoCmd, .redoCmd, .remove "a", .add "c", .clearCmd, .add "d"]

/-- A stamped operation as the server stores it. -/
def sampleOp : JSVal := .obj [("id", .str "op-1")]

/-- A room whose ledger holds exactly `sampleOp`. -/
def sampleRoom : RoomState JSVal := ⟨[sampleOp], [], [("op-1", 0)]⟩

/-- The same room after an undo of `sampleOp`. -/
def sampleRoomUndone : RoomState JSVal := ⟨[], [sampleOp], []⟩

/-! ## Lemmas about the JS object model -/

/-- A points element that is JS `null` makes `validateDrawingData` throw a
`TypeError` (the `point.x` access of src/server/server.js:44) instead of
returning a verdict — recorded here because it bounds the scope of the
accept/reject characterization below. -/
theorem validate_throws_on_null_point :
    validateDrawingData (.obj [("points", .arr [.null]), ("tool", .str "eraser"),
      ("strokeWidth", .num (.finite 5))]) = .error () := by
  rfl

section JsObjLemmas

variable {β : Type}

theorem jsGet_jsSet_self (m : List (String × β)) (k : String) (v : β) :
    jsGet (jsSet m k v) k = some v := by
  induction m with
  | nil => simp [jsSet, jsGet]
  | cons p m ih =>
    by_cases h : p.1 = k
    · simp [jsSet, jsGet, h]
    · simp [jsSet, jsGet, h, ih]

theorem jsGet_jsSet_ne (m : List (String × β)) {k k' : String} (v : β) (h : k' ≠ k) :
    jsGet (jsSet m k v) k' = jsGet m k' := by
  induction m with
  | nil => simp [jsSet, jsGet, h.symm]
  | cons p m ih =>
    by_cases hp : p.1 = k
    · simp [jsSet, jsGet, hp, h.symm]
    · simp only [jsSet, beq_iff_eq, hp, if_false, jsGet, ih]

theorem jsGet_jsDelete_self (m : List (String × β)) (k : String) :
    jsGet (jsDelete m k) k = none := by
  induction m with
  | nil => simp [jsDelete, jsGet]
  | cons p m ih =>
    by_cases h : p.1 = k
    · simp [jsDelete, h, ih]
    · simp [jsDelete, jsGet, h, ih]

theorem jsGet_jsDelete_ne (m : List (String × β)) {k k' : String} (h : k' ≠ k) :
    jsGet (jsDelete m k) k' = jsGet m k' := by
  induction m with
  | nil => simp [jsDelete]
  | cons p m ih =>
    by_cases hp : p.1 = k
    · simp [jsDelete, jsGet, hp, h.symm, ih]
    · simp [jsDelete, jsGet, hp, ih]

theorem jsGet_eq_none_iff (m : List (String × β)) (k : String) :
    jsGet m k = none ↔ ∀ p ∈ m, p.1 ≠ k := by
  induction m with
  | nil => simp [jsGet]
  | cons p m ih =>
    by_cases hp : p.1 = k
    · simp [jsGet, hp]
    · simp [jsGet, hp, ih]

theorem jsSet_fresh {m : List (String × β)} {k : String} (v : β)
    (h : ∀ p ∈ m, p.1 ≠ k) : jsSet m k v = m ++ [(k, v)] := by
  induction m with
  | nil => simp [jsSet]
  | cons p m ih =>
    have hp : ¬ p.1 = k := h p (by simp)
    simp only [jsSet, beq_iff_eq, hp, if_false, List.cons_append, List.cons.injEq, true_and]
    exact ih fun q hq => h q (by simp [hq])

theorem jsDelete_fresh {m : List (String × β)} {k : String}
    (h : ∀ p ∈ m, p.1 ≠ k) : jsDelete m k = m := by
  induction m with
  | nil => simp [jsDelete]
  | cons p m ih =>
    have hp : ¬ p.1 = k := h p (by simp)
    simp only [jsDelete, beq_iff_eq, hp, if_false, List.cons.injEq, true_and]
    exact ih fun q hq => h q (by simp [hq])

theorem jsDelete_append (m₁ m₂ : List (String × β)) (k : String) :
    jsDelete (m₁ ++ m₂) k = jsDelete m₁ k ++ jsDelete m₂ k := by
  induction m₁ with
  | nil => simp [jsDelete]
  | cons p m ih =>
    by_cases hp : p.1 = k
    · simp [jsDelete, hp, ih]
    · simp [jsDelete, hp, ih]

theorem jsGet_append_of_some {m₁ : List (String × β)} {k : String} {v : β}
    (m₂ : List (String × β)) (h : jsGet m₁ k = some v) :
    jsGet (m₁ ++ m₂) k = some v := by
  induction m₁ with
  | nil => simp [jsGet] at h
  | cons p m ih =>
    by_cases hp : p.1 = k
    · simp only [jsGet, beq_iff_eq, hp, if_true] at h ⊢; exact h
    · simp only [jsGet, beq_iff_eq, hp, if_false] at h ⊢
      exact ih h

theorem jsGet_append_of_none {m₁ : List (String × β)} {k : String}
    (m₂ : List (String × β)) (h : jsGet m₁ k = none) :
    jsGet (m₁ ++ m₂) k = jsGet m₂ k := by
  induction m₁ with
  | nil => simp [jsGet]
  | cons p m ih =>
    by_cases hp : p.1 = k
    · simp [jsGet, hp] at h
    · simp only [jsGet, beq_iff_eq, hp, if_false] at h ⊢
      exact ih h

end JsObjLemmas

/-! ## Lemmas about `_rebuildIndex` -/

section RebuildLemmas

variable {α : Type} (idOf : α → String)

theorem rebuildAux_concat (l : List α) (op : α) :
    ∀ (i : Nat) (m : List (String × Nat)),
      rebuildAux idOf (l ++ [op]) i m
        = jsSet (rebuildAux idOf l i m) (idOf op) (i + l.length) := by
  induction l with
  | nil => intro i m; simp [rebuildAux]
  | cons x l ih =>
    intro i m
    have hstep : rebuildAux idOf ((x :: l) ++ [op]) i m
        = rebuildAux idOf (l ++ [op]) (i + 1) (jsSet m (idOf x) i) := rfl
    have hstep2 : rebuildAux idOf (x :: l) i m
        = rebuildAux idOf l (i + 1) (jsSet m (idOf x) i) := rfl
    have harith : i + (x :: l).length = i + 1 + l.length := by
      simp only [List.length_cons]; omega
    rw [hstep, ih, hstep2, harith]

theorem rebuildIndex_concat (ops : List α) (op : α) :
    rebuildIndex idOf (ops ++ [op])
      = jsSet (rebuildIndex idOf ops) (idOf op) ops.length := by
  simpa using rebuildAux_concat idOf ops op 0 []

theorem keys_rebuildIndex (ops : List α) (h : (ops.map idOf).Nodup) :
    (rebuildIndex idOf ops).map Prod.fst = ops.map idOf := by
  induction ops using List.reverseRecOn with
  | nil => simp [rebuildIndex, rebuildAux]
  | append_singleton l a ih =>
    rw [List.map_append, List.nodup_append] at h
    obtain ⟨hl, -, hdisj⟩ := h
    have hfresh : idOf a ∉ l.map idOf := fun hmem => hdisj hmem (by simp)
    have hkeys := ih hl
    have : ∀ p ∈ rebuildIndex idOf l, p.1 ≠ idOf a := by
      intro p hp heq
      exact hfresh (heq ▸ hkeys ▸ List.mem_map_of_mem Prod.fst hp)
    rw [rebuildIndex_concat, jsSet_fresh _ this, List.map_append, hkeys, List.map_append]
    simp

theorem rebuildIndex_concat_fresh (l : List α) (a : α)
    (h : ((l ++ [a]).map idOf).Nodup) :
    rebuildIndex idOf (l ++ [a]) = rebuildIndex idOf l ++ [(idOf a, l.length)] := by
  rw [List.map_append, List.nodup_append] at h
  obtain ⟨hl, -, hdisj⟩ := h
  have hfresh : idOf a ∉ l.map idOf := fun hmem => hdisj hmem (by simp)
  have hkeys := keys_rebuildIndex idOf l hl
  rw [rebuildIndex_concat]
  apply jsSet_fresh
  intro p hp heq
  exact hfresh (heq ▸ hkeys ▸ List.mem_map_of_mem Prod.fst hp)

theorem jsGet_rebuildIndex_of_not_mem (ops : List α) {k : String}
    (h : (ops.map idOf).Nodup) (hk : k ∉ ops.map idOf) :
    jsGet (rebuildIndex idOf ops) k = none := by
  rw [jsGet_eq_none_iff]
  intro p hp heq
  exact hk (heq ▸ keys_rebuildIndex idOf ops h ▸ List.mem_map_of_mem Prod.fst hp)

theorem jsGet_rebuildIndex_some (ops : List α) :
    (ops.map idOf).Nodup → ∀ k p, jsGet (rebuildIndex idOf ops) k = some p →
      ∃ hp : p < ops.length, idOf (ops.get ⟨p, hp⟩) = k := by
  induction ops using List.reverseRecOn with
  | nil => intro _ k p hget; simp [rebuildIndex, rebuildAux, jsGet] at hget
  | append_singleton l a ih =>
    intro h k p hget
    have hl : (l.map idOf).Nodup := by
      rw [List.map_append, List.nodup_append] at h
      exact h.1
    rw [rebuildIndex_concat_fresh idOf l a h] at hget
    rcases hrest : jsGet (rebuildIndex idOf l) k with - | v
    · rw [jsGet_append_of_none _ hrest] at hget
      by_cases hka : idOf a = k
      · simp only [jsGet, hka] at hget
        rw [if_pos (by simp)] at hget
        have hp : l.length = p := Option.some.inj hget
        subst hp
        refine ⟨by simp, ?_⟩
        rw [← hka]
        simp only [List.get_eq_getElem]
        exact congrArg idOf (List.getElem_concat_length l a l.length rfl (by simp))
      · simp [jsGet, hka] at hget
    · rw [jsGet_append_of_some _ hrest] at hget
      have hvp : v = p := Option.some.inj hget
      subst hvp
      obtain ⟨hp, hid⟩ := ih hl k v hrest
      refine ⟨by simp; omega, ?_⟩
      rw [← hid]
      simp only [List.get_eq_getElem]
      exact congrArg idOf (List.getElem_append_left hp)

theorem jsGet_rebuildIndex_get (ops : List α) :
    (ops.map idOf).Nodup → ∀ i : Fin ops.length,
      jsGet (rebuildIndex idOf ops) (idOf (ops.get i)) = some i.val := by
  induction ops using List.reverseRecOn with
  | nil => intro _ i; exact absurd i.2 (by simp)
  | append_singleton l a ih =>
    intro h i
    have hl : (l.map idOf).Nodup := by
      rw [List.map_append, List.nodup_append] at h
      exact h.1
    have hfresh : idOf a ∉ l.map idOf := by
      rw [List.map_append, List.nodup_append] at h
      exact fun hmem => h.2.2 hmem (by simp)
    rw [rebuildIndex_concat_fresh idOf l a h]
    rcases Nat.lt_or_ge i.val l.length with hlt | hge
    · have hget : (l ++ [a]).get i = l.get ⟨i.val, hlt⟩ := by
        simp only [List.get_eq_getElem]
        exact List.getElem_append_left hlt
      rw [hget]
      exact jsGet_append_of_some _ (ih hl ⟨i.val, hlt⟩)
    · have hi : i.val = l.length := by
        have := i.2
        simp only [List.length_append, List.length_cons, List.length_nil] at this
        omega
      have hget : (l ++ [a]).get i = a := by
        simp only [List.get_eq_getElem]
        exact List.getElem_concat_length l a i.val hi i.2
      rw [hget, hi,
        jsGet_append_of_none _ (jsGet_rebuildIndex_of_not_mem idOf l hl hfresh)]
      simp [jsGet]

end RebuildLemmas

/-! ## Preservation of the ledger invariant -/

section InvLemmas

variable {α : Type} (idOf : α → String)

theorem ledgerInv_empty : LedgerInv idOf (emptyRoomState α) := by
  constructor
  · rfl
  · simp [stateIds, emptyRoomState]

theorem nodup_operations_of_inv {s : RoomState α} (h : LedgerInv idOf s) :
    (s.operations.map idOf).Nodup := by
  have := h.2
  rw [stateIds, List.map_append, List.nodup_append] at this
  exact this.1

theorem ledgerInv_add {s : RoomState α} (h : LedgerInv idOf s) {op : α}
    (hfresh : idOf op ∉ stateIds idOf s) :
    LedgerInv idOf (addOperation idOf s op).2 := by
  constructor
  · show jsSet s.operationIndex (idOf op) ((s.operations ++ [op]).length - 1)
        = rebuildIndex idOf (s.operations ++ [op])
    rw [h.1, rebuildIndex_concat]
    simp
  · show ((s.operations ++ [op]) ++ []).map idOf |>.Nodup
    rw [List.append_nil, List.map_append, List.nodup_append]
    refine ⟨nodup_operations_of_inv idOf h, by simp, ?_⟩
    intro x hx hxa
    simp only [List.map_cons, List.map_nil, List.mem_singleton] at hxa
    subst hxa
    exact hfresh (by
      rw [stateIds, List.map_append]
      exact List.mem_append_left _ hx)

theorem ledgerInv_undo {s : RoomState α} (h : LedgerInv idOf s) :
    LedgerInv idOf (undo idOf s).2 := by
  rcases hlast : s.operations.getLast? with - | a
  · simp only [undo, hlast]
    exact h
  · obtain ⟨l, hops⟩ := List.getLast?_eq_some_iff.mp hlast
    have hnodupOps : (s.operations.map idOf).Nodup := nodup_operations_of_inv idOf h
    have hparts : (l.map idOf).Nodup ∧ idOf a ∉ l.map idOf := by
      have hcopy := hnodupOps
      rw [hops, List.map_append, List.nodup_append] at hcopy
      exact ⟨hcopy.1, fun hmem => hcopy.2.2 hmem (by simp)⟩
    simp only [undo, hlast]
    constructor
    · show jsDelete s.operationIndex (idOf a) = rebuildIndex idOf s.operations.dropLast
      rw [h.1, hops, List.dropLast_concat,
        rebuildIndex_concat_fresh idOf l a (by rw [← hops]; exact hnodupOps),
        jsDelete_append]
      have hdel : jsDelete (rebuildIndex idOf l) (idOf a) = rebuildIndex idOf l := by
        apply jsDelete_fresh
        intro p hp heq
        apply hparts.2
        rw [← heq, ← keys_rebuildIndex idOf l hparts.1]
        exact List.mem_map_of_mem Prod.fst hp
      rw [hdel]
      simp [jsDelete]
    · show ((s.operations.dropLast ++ (s.undoStack ++ [a])).map idOf).Nodup
      have hperm : List.Perm (s.operations.dropLast ++ (s.undoStack ++ [a]))
          (s.operations ++ s.undoStack) := by
        rw [hops, List.dropLast_concat, List.append_assoc]
        exact List.Perm.append_left l List.perm_append_comm
      exact ((hperm.map idOf).nodup_iff).mpr h.2

theorem ledgerInv_redo {s : RoomState α} (h : LedgerInv idOf s) :
    LedgerInv idOf (redo idOf s).2 := by
  rcases hlast : s.undoStack.getLast? with - | a
  · simp only [redo, hlast]
    exact h
  · obtain ⟨u, hus⟩ := List.getLast?_eq_some_iff.mp hlast
    simp only [redo, hlast]
    constructor
    · show jsSet s.operationIndex (idOf a) ((s.operations ++ [a]).length - 1)
          = rebuildIndex idOf (s.operations ++ [a])
      rw [h.1, rebuildIndex_concat]
      simp
    · show (((s.operations ++ [a]) ++ s.undoStack.dropLast).map idOf).Nodup
      have hperm : List.Perm ((s.operations ++ [a]) ++ s.undoStack.dropLast)
          (s.operations ++ s.undoStack) := by
        rw [hus, List.dropLast_concat, List.append_assoc]
        exact List.Perm.append_left s.operations List.perm_append_comm
      exact ((hperm.map idOf).nodup_iff).mpr h.2

theorem ledgerInv_remove {s : RoomState α} (h : LedgerInv idOf s)
    (operationId : String) :
    LedgerInv idOf (removeOperation idOf s operationId) := by
  rcases hget : jsGet s.operationIndex operationId with - | i
  · simp only [removeOperation, hget]
    exact h
  · simp only [removeOperation, hget]
    constructor
    · rfl
    · show ((s.operations.eraseIdx i ++ s.undoStack).map idOf).Nodup
      have hsub : List.Sublist (s.operations.eraseIdx i ++ s.undoStack)
          (s.operations ++ s.undoStack) :=
        (List.eraseIdx_sublist s.operations i).append_right s.undoStack
      exact h.2.sublist (hsub.map idOf)

theorem ledgerInv_clear (s : RoomState α) : LedgerInv idOf (clearState s) := by
  constructor
  · rfl
  · simp [stateIds, clearState]

theorem stateIds_add (s : RoomState α) (op : α) :
    stateIds idOf (addOperation idOf s op).2 = s.operations.map idOf ++ [idOf op] := by
  show ((s.operations ++ [op]) ++ []).map idOf = _
  simp [stateIds]

theorem stateIds_undo_subset (s : RoomState α) :
    ∀ x ∈ stateIds idOf (undo idOf s).2, x ∈ stateIds idOf s := by
  rcases hlast : s.operations.getLast? with - | a
  · simp only [undo, hlast]
    exact fun x hx => hx
  · obtain ⟨l, hops⟩ := List.getLast?_eq_some_iff.mp hlast
    simp only [undo, hlast]
    intro x hx
    simp only [stateIds, List.map_append, List.mem_append, hops,
      List.dropLast_concat, List.map_cons, List.map_nil, List.mem_singleton] at hx ⊢
    rcases hx with hx | hx | hx
    · exact Or.inl (Or.inl hx)
    · exact Or.inr hx
    · exact Or.inl (Or.inr (by simp [hx]))

theorem stateIds_redo_subset (s : RoomState α) :
    ∀ x ∈ stateIds idOf (redo idOf s).2, x ∈ stateIds idOf s := by
  rcases hlast : s.undoStack.getLast? with - | a
  · simp only [redo, hlast]
    exact fun x hx => hx
  · obtain ⟨u, hus⟩ := List.getLast?_eq_some_iff.mp hlast
    simp only [redo, hlast]
    intro x hx
    simp only [stateIds, List.map_append, List.mem_append, hus,
      List.dropLast_concat, List.map_cons, List.map_nil, List.mem_singleton] at hx ⊢
    rcases hx with (hx | hx) | hx
    · exact Or.inl hx
    · exact Or.inr (Or.inr (by simp [hx]))
    · exact Or.inr (Or.inl hx)

theorem stateIds_remove_subset (s : RoomState α) (operationId : String) :
    ∀ x ∈ stateIds idOf (removeOperation idOf s operationId), x ∈ stateIds idOf s := by
  rcases hget : jsGet s.operationIndex operationId with - | i
  · simp only [removeOperation, hget]
    exact fun x hx => hx
  · simp only [removeOperation, hget]
    intro x hx
    have hsub : List.Sublist (s.operations.eraseIdx i ++ s.undoStack)
        (s.operations ++ s.undoStack) :=
      (List.eraseIdx_sublist s.operations i).append_right s.undoStack
    simp only [stateIds] at hx ⊢
    exact (hsub.map idOf).subset hx

theorem execCmds_inv (cs : List (Cmd α)) :
    ∀ s : RoomState α, LedgerInv idOf s → (addIds idOf cs).Nodup →
      (∀ x ∈ stateIds idOf s, x ∉ addIds idOf cs) →
      LedgerInv idOf (execCmds idOf cs s) := by
  induction cs with
  | nil => intro s h _ _; exact h
  | cons c cs ih =>
    intro s h hnodup hdisj
    cases c with
    | add op =>
      have hmemAdd : idOf op ∈ addIds idOf (Cmd.add op :: cs) := by
        simp [addIds]
      have hfresh : idOf op ∉ stateIds idOf s := fun hin => hdisj _ hin hmemAdd
      have hnodup' : (addIds idOf cs).Nodup ∧ idOf op ∉ addIds idOf cs := by
        have : addIds idOf (Cmd.add op :: cs) = idOf op :: addIds idOf cs := rfl
        rw [this] at hnodup
        exact ⟨hnodup.of_cons, (List.nodup_cons.mp hnodup).1⟩
      refine ih _ (ledgerInv_add idOf h hfresh) hnodup'.1 ?_
      intro x hx
      simp only [stepCmd] at hx
      rw [stateIds_add] at hx
      rcases List.mem_append.mp hx with hx | hx
      · intro hmem
        exact hdisj x (by
          rw [stateIds, List.map_append]
          exact List.mem_append_left _ hx) (by
          show x ∈ idOf op :: addIds idOf cs
          exact List.mem_cons_of_mem _ hmem)
      · rw [List.mem_singleton] at hx
        subst hx
        exact hnodup'.2
    | undoCmd =>
      refine ih _ (ledgerInv_undo idOf h) hnodup ?_
      intro x hx
      exact hdisj x (stateIds_undo_subset idOf s x hx)
    | redoCmd =>
      refine ih _ (ledgerInv_redo idOf h) hnodup ?_
      intro x hx
      exact hdisj x (stateIds_redo_subset idOf s x hx)
    | remove operationId =>
      refine ih _ (ledgerInv_remove idOf h operationId) hnodup ?_
      intro x hx
      exact hdisj x (stateIds_remove_subset idOf s operationId x hx)
    | clearCmd =>
      refine ih _ (ledgerInv_clear idOf s) hnodup ?_
      intro x hx
      simp [stepCmd, stateIds, clearState] at hx

/-- Any state reachable from the empty ledger by commands whose appended ids
are pairwise distinct satisfies the ledger invariant. -/
theorem execCmds_inv_empty (cs : List (Cmd α)) (h : (addIds idOf cs).Nodup) :
    LedgerInv idOf (execCmds idOf cs (emptyRoomState α)) := by
  refine execCmds_inv idOf cs _ (ledgerInv_empty idOf) h ?_
  intro x hx
  simp [stateIds, emptyRoomState] at hx

end InvLemmas

/-! ## Consequences of the invariant: index lookups and removal -/

section RemovalLemmas

variable {α : Type} (idOf : α → String)

theorem inv_index_lookup {s : RoomState α} (h : LedgerInv idOf s) :
    (∀ k p, jsGet s.operationIndex k = some p →
       ∃ hp : p < s.operations.length, idOf (s.operations.get ⟨p, hp⟩) = k)
    ∧ (∀ i : Fin s.operations.length,
        jsGet s.operationIndex (idOf (s.operations.get i)) = some i.val)
    ∧ s.operationIndex.map Prod.fst = s.operations.map idOf := by
  have hnodup := nodup_operations_of_inv idOf h
  refine ⟨?_, ?_, ?_⟩
  · intro k p hget
    rw [h.1] at hget
    exact jsGet_rebuildIndex_some idOf s.operations hnodup k p hget
  · intro i
    rw [h.1]
    exact jsGet_rebuildIndex_get idOf s.operations hnodup i
  · rw [h.1]
    exact keys_rebuildIndex idOf s.operations hnodup

theorem not_mem_map_eraseIdx (l : List α) (h : (l.map idOf).Nodup)
    (p : Nat) (hp : p < l.length) :
    idOf (l.get ⟨p, hp⟩) ∉ (l.eraseIdx p).map idOf := by
  intro hmem
  rw [List.mem_map] at hmem
  obtain ⟨b, hb, hid⟩ := hmem
  obtain ⟨j, hj, hbj⟩ := List.mem_iff_getElem.mp hb
  have hlen : (l.eraseIdx p).length = l.length - 1 := by
    rw [List.length_eraseIdx]
    simp [hp]
  have hq : j < l.length := by omega
  have hql : j < (l.map idOf).length := by simpa using hq
  have hpl : p < (l.map idOf).length := by simpa using hp
  rcases Nat.lt_or_ge j p with hjp | hjp
  · have h2 : l[j] = b := by
      have h3 := List.getElem_eraseIdx_of_lt l p j hj hjp
      rw [hbj] at h3
      exact h3.symm
    have h1 : (l.map idOf)[j] = (l.map idOf)[p] := by
      rw [List.getElem_map, List.getElem_map, h2, hid]
      simp [List.get_eq_getElem]
    have := (h.getElem_inj_iff).mp h1
    omega
  · have hq1 : j + 1 < l.length := by omega
    have hql1 : j + 1 < (l.map idOf).length := by simpa using hq1
    have h2 : l[j + 1] = b := by
      have h3 := List.getElem_eraseIdx_of_ge l p j hj hjp
      rw [hbj] at h3
      exact h3.symm
    have h1 : (l.map idOf)[j + 1] = (l.map idOf)[p] := by
      rw [List.getElem_map, List.getElem_map, h2, hid]
      simp [List.get_eq_getElem]
    have := (h.getElem_inj_iff).mp h1
    omega

theorem removeOperation_not_found (s : RoomState α) (x : String)
    (hget : jsGet s.operationIndex x = none) :
    removeOperation idOf s x = s := by
  simp [removeOperation, hget]

theorem removeOperation_found {s : RoomState α} (h : LedgerInv idOf s)
    {x : String} {p : Nat} (hget : jsGet s.operationIndex x = some p) :
    ∃ hp : p < s.operations.length,
      idOf (s.operations.get ⟨p, hp⟩) = x
      ∧ (removeOperation idOf s x).operations = s.operations.eraseIdx p
      ∧ (removeOperation idOf s x).operationIndex
          = rebuildIndex idOf (s.operations.eraseIdx p)
      ∧ jsGet (removeOperation idOf s x).operationIndex x = none := by
  have hnodup := nodup_operations_of_inv idOf h
  have hget' := hget
  rw [h.1] at hget'
  obtain ⟨hp, hid⟩ := jsGet_rebuildIndex_some idOf s.operations hnodup x p hget'
  refine ⟨hp, hid, ?_, ?_, ?_⟩
  · simp [removeOperation, hget]
  · simp [removeOperation, hget]
  · simp only [removeOperation, hget]
    have hnodup' : ((s.operations.eraseIdx p).map idOf).Nodup :=
      hnodup.sublist ((List.eraseIdx_sublist s.operations p).map idOf)
    refine jsGet_rebuildIndex_of_not_mem idOf _ hnodup' ?_
    rw [← hid]
    exact not_mem_map_eraseIdx idOf s.operations hnodup p hp

theorem removeOperation_idem {s : RoomState α} (h : LedgerInv idOf s) (x : String) :
    removeOperation idOf (removeOperation idOf s x) x = removeOperation idOf s x := by
  rcases hget : jsGet s.operationIndex x with - | p
  · rw [removeOperation_not_found idOf s x hget, removeOperation_not_found idOf s x hget]
  · obtain ⟨hp, -, -, -, hnone⟩ := removeOperation_found idOf h hget
    exact removeOperation_not_found idOf _ x hnone

theorem removeOperation_shift {s : RoomState α} (h : LedgerInv idOf s)
    {x : String} {p : Nat} (hget : jsGet s.operationIndex x = some p)
    (i : Fin s.operations.length) (hpi : p < i.val) :
    jsGet (removeOperation idOf s x).operationIndex (idOf (s.operations.get i))
      = some (i.val - 1) := by
  have hnodup := nodup_operations_of_inv idOf h
  obtain ⟨hp, hid, hops, hidx, -⟩ := removeOperation_found idOf h hget
  have hnodup' : ((s.operations.eraseIdx p).map idOf).Nodup :=
    hnodup.sublist ((List.eraseIdx_sublist s.operations p).map idOf)
  have hlen : (s.operations.eraseIdx p).length = s.operations.length - 1 := by
    rw [List.length_eraseIdx]
    simp [hp]
  have hi1 : i.val - 1 < (s.operations.eraseIdx p).length := by
    have := i.2
    omega
  have hgetEq : (s.operations.eraseIdx p).get ⟨i.val - 1, hi1⟩ = s.operations.get i := by
    simp only [List.get_eq_getElem]
    have hge : p ≤ i.val - 1 := by omega
    have h3 := List.getElem_eraseIdx_of_ge s.operations p (i.val - 1) hi1 hge
    rw [h3]
    have : i.val - 1 + 1 = i.val := by omega
    simp only [this]
  have := jsGet_rebuildIndex_get idOf (s.operations.eraseIdx p) hnodup' ⟨i.val - 1, hi1⟩
  rw [hgetEq] at this
  rw [hidx]
  exact this

end RemovalLemmas

/-! ## Characterization of `validateDrawingData` -/

section ValidateLemmas

theorem checkPoint_ok_true (p : JSVal) :
    (checkPoint p = .ok true) ↔ specPoint p = true := by
  cases p with
  | null => simp [checkPoint, getField, specPoint, jsAccess]
  | undefined => simp [checkPoint, getField, specPoint, jsAccess]
  | bool b => simp [checkPoint, getField, specPoint, jsAccess, jsTypeof]
  | num n => simp [checkPoint, getField, specPoint, jsAccess, jsTypeof]
  | str s => simp [checkPoint, getField, specPoint, jsAccess, jsTypeof]
  | arr elems => simp [checkPoint, getField, specPoint, jsAccess, jsTypeof]
  | obj fields =>
    rcases hx : (jsGet fields "x").getD JSVal.undefined with - | - | bx | nx | sx | ex | fx <;>
      rcases hy : (jsGet fields "y").getD JSVal.undefined with - | - | yb | yn | ys | ye | yf <;>
        first
          | (cases nx <;> cases yn <;>
              simp [checkPoint, getField, jsAccess, specPoint, jsTypeof, jsIsFiniteNum,
                JSNumber.isFinite, hx, hy])
          | simp [checkPoint, getField, jsAccess, specPoint, jsTypeof, jsIsFiniteNum, hx, hy]

theorem checkPoints_ok_true (pts : List JSVal) :
    (checkPoints pts = .ok true) ↔ pts.all specPoint = true := by
  induction pts with
  | nil => simp [checkPoints]
  | cons p rest ih =>
    rcases hcp : checkPoint p with e | b
    · have hsp : specPoint p = false := by
        cases hb : specPoint p
        · rfl
        · have hok := (checkPoint_ok_true p).mpr hb
          rw [hcp] at hok
          simp at hok
      simp [checkPoints, hcp, hsp]
    · cases b
      · have hsp : specPoint p = false := by
          cases hb : specPoint p
          · rfl
          · have hok := (checkPoint_ok_true p).mpr hb
            rw [hcp] at hok
            simp at hok
        simp [checkPoints, hcp, hsp]
      · have hsp : specPoint p = true := (checkPoint_ok_true p).mp hcp
        simp [checkPoints, hcp, hsp, ih]

theorem validate_ok_true_iff (d : JSVal) :
    (validateDrawingData d = .ok true) ↔ specAcceptsJS d = true := by
  cases d with
  | null => simp [validateDrawingData, specAcceptsJS, isObj, jsTruthy]
  | undefined => simp [validateDrawingData, specAcceptsJS, isObj, jsTruthy]
  | bool b => simp [validateDrawingData, specAcceptsJS, isObj, jsTruthy, jsTypeof]
  | num n =>
    cases n <;>
      simp [validateDrawingData, specAcceptsJS, isObj, jsTruthy, jsTypeof]
  | str s => simp [validateDrawingData, specAcceptsJS, isObj, jsTruthy, jsTypeof]
  | arr elems =>
    simp [validateDrawingData, specAcceptsJS, isObj, jsTruthy, jsTypeof, jsAccess]
  | obj fields =>
    rcases hpts : (jsGet fields "points").getD JSVal.undefined
        with - | - | pb | pn | ps | pts | pf <;>
      simp only [validateDrawingData, specAcceptsJS, specPointsOK, isObj, jsTruthy,
        jsTypeof, jsAccess, hpts] <;>
      try simp
    rcases hempty : pts with - | ⟨p0, rest⟩
    · simp
    · rw [← hempty]
      have hlen : (pts.length == 0) = false := by
        simp [hempty]
      rw [hlen]
      simp only [Bool.false_eq_true, if_false]
      rcases htool : (jsGet fields "tool").getD JSVal.undefined
          with - | - | tb | tn | ts | ta | tf <;>
        simp only [specToolColorOK, jsAccess, htool] <;>
        try simp
      rcases hsw : (jsGet fields "strokeWidth").getD JSVal.undefined
          with - | - | wb | wn | ws | wa | wf <;>
        simp only [specStrokeWidthJS, jsAccess, hsw] <;>
        try simp
      have hne : pts ≠ [] := by simp [hempty]
      by_cases hmem : ts ∈ validTools
      · rw [if_pos hmem]
        by_cases hw : jsNumLt wn (.finite 1) = true ∨ jsNumLt (.finite 50) wn = true
        · rw [if_pos hw]
          rcases hw with h1 | h1 <;> simp [h1]
        · rw [if_neg hw]
          rw [not_or] at hw
          obtain ⟨hw1, hw2⟩ := hw
          rw [Bool.not_eq_true] at hw1 hw2
          by_cases ht : ts = "eraser"
          · subst ht
            rw [if_pos rfl, checkPoints_ok_true]
            simp [hne, hw1, hw2, List.all_eq_true]
          · rw [if_neg ht]
            have htb : ts = "brush" := by
              have hor : ts = "brush" ∨ ts = "eraser" := by
                simpa [validTools] using hmem
              rcases hor with h | h
              · exact h
              · exact absurd h ht
            rcases hcol : (jsGet fields "color").getD JSVal.undefined
                with - | - | cb | cn | cs | ca | cf <;>
              simp only [hcol] <;>
              try simp [ht]
            cases hhex : isHexColor cs
            · simp
            · simp [checkPoints_ok_true, List.all_eq_true, hne, hw1, hw2, htb]
      · rw [if_neg hmem]
        have hne2 : ¬(ts = "brush" ∨ ts = "eraser") := by
          simpa [validTools] using hmem
        simp [hne2]

end ValidateLemmas

/-! ## Lemmas about stamping and the draw handler -/

section StampLemmas

theorem stampOperation_id (senderId : String) (now : Int) (rand : String) (d : JSVal) :
    jsAccess (stampOperation senderId now rand d) "id"
      = .str (genOpId senderId now rand) := by
  simp only [stampOperation, jsAccess, jsGet_jsSet_self, Option.getD_some]

theorem stampOperation_timestamp (senderId : String) (now : Int) (rand : String) (d : JSVal) :
    jsAccess (stampOperation senderId now rand d) "timestamp"
      = .num (.finite (now : ℚ)) := by
  simp only [stampOperation, jsAccess,
    jsGet_jsSet_ne _ _ (by decide : "timestamp" ≠ "id"),
    jsGet_jsSet_self, Option.getD_some]

theorem stampOperation_userId (senderId : String) (now : Int) (rand : String) (d : JSVal) :
    jsAccess (stampOperation senderId now rand d) "userId" = .str senderId := by
  simp only [stampOperation, jsAccess,
    jsGet_jsSet_ne _ _ (by decide : "userId" ≠ "id"),
    jsGet_jsSet_ne _ _ (by decide : "userId" ≠ "timestamp"),
    jsGet_jsSet_self, Option.getD_some]

theorem stampOperation_other (senderId : String) (now : Int) (rand : String)
    (f : List (String × JSVal)) {k : String}
    (h1 : k ≠ "id") (h2 : k ≠ "userId") (h3 : k ≠ "timestamp") :
    jsAccess (stampOperation senderId now rand (.obj f)) k = jsAccess (.obj f) k := by
  simp only [stampOperation, objFields, jsAccess,
    jsGet_jsSet_ne _ _ h1, jsGet_jsSet_ne _ _ h3, jsGet_jsSet_ne _ _ h2]

theorem handleDraw_accepted (senderId : String) (now : Int) (rand : String)
    (s : RoomState JSVal) (data : JSVal)
    (hval : validateDrawingData data = .ok true) :
    handleDraw senderId now rand s data
      = .ok ((addOperation jsIdOf s (stampOperation senderId now rand data)).2,
             [Emit.toRoomExceptSender "draw" [stampOperation senderId now rand data]]) := by
  simp [handleDraw, hval]

theorem validate_obj_of_accepted {data : JSVal}
    (hval : validateDrawingData data = .ok true) :
    ∃ f, data = .obj f := by
  have hspec := (validate_ok_true_iff data).mp hval
  cases data <;> simp [specAcceptsJS, isObj] at hspec
  exact ⟨_, rfl⟩

theorem jsGet_append_single_ne {β : Type} (f : List (String × β)) {k k' : String}
    (v : β) (h : k' ≠ k) : jsGet (f ++ [(k, v)]) k' = jsGet f k' := by
  rcases hf : jsGet f k' with - | w
  · rw [jsGet_append_of_none _ hf]
    simp [jsGet, h.symm]
  · rw [jsGet_append_of_some _ hf]

theorem specAcceptsJS_extend (f : List (String × JSVal)) (k : String) (v : JSVal)
    (hk : ¬ k ∈ (["points", "tool", "strokeWidth", "color"] : List String)) :
    specAcceptsJS (.obj (f ++ [(k, v)])) = specAcceptsJS (.obj f) := by
  simp only [List.mem_cons, List.mem_singleton, not_or] at hk
  obtain ⟨hk1, hk2, hk3, hk4, -⟩ := hk
  have hp := jsGet_append_single_ne f v (fun h => hk1 h.symm)
  have ht := jsGet_append_single_ne f v (fun h => hk2 h.symm)
  have hw := jsGet_append_single_ne f v (fun h => hk3 h.symm)
  have hc := jsGet_append_single_ne f v (fun h => hk4 h.symm)
  simp only [specAcceptsJS, isObj, specPointsOK, specToolColorOK, specStrokeWidthJS,
    jsAccess, hp, ht, hw, hc]

end StampLemmas

/-! ## Claim theorems -/

/-- C1: starting from an empty room ledger, after any finite sequence of
addOperation / undo / redo / removeOperation / clearState calls in which every
appended operation carries a distinct id, the id-to-position index is exactly
derivable from the operations list: every id in the index points at the
operation carrying it, every operation's id is indexed at its own position,
and the index holds exactly the ids of the logged operations. -/
theorem claimC1_index_consistency {α : Type} (idOf : α → String)
    (cs : List (Cmd α)) (h : (addIds idOf cs).Nodup) :
    (∀ k p, jsGet (execCmds idOf cs (emptyRoomState α)).operationIndex k = some p →
       ∃ hp : p < (execCmds idOf cs (emptyRoomState α)).operations.length,
         idOf ((execCmds idOf cs (emptyRoomState α)).operations.get ⟨p, hp⟩) = k)
    ∧ (∀ i : Fin (execCmds idOf cs (emptyRoomState α)).operations.length,
        jsGet (execCmds idOf cs (emptyRoomState α)).operationIndex
          (idOf ((execCmds idOf cs (emptyRoomState α)).operations.get i)) = some i.val)
    ∧ (execCmds idOf cs (emptyRoomState α)).operationIndex.map Prod.fst
        = (execCmds idOf cs (emptyRoomState α)).operations.map idOf :=
  inv_index_lookup idOf (execCmds_inv_empty idOf cs h)

/-- Witness for C1: the invariant instantiated on a concrete scenario that
exercises every command once, with distinct appended ids. -/
theorem claimC1_witness :
    (addIds idSelf sampleCmds).Nodup
    ∧ ((∀ k p,
        jsGet (execCmds idSelf sampleCmds (emptyRoomState String)).operationIndex k
          = some p →
        ∃ hp : p < (execCmds idSelf sampleCmds (emptyRoomState String)).operations.length,
          idSelf ((execCmds idSelf sampleCmds (emptyRoomState String)).operations.get
            ⟨p, hp⟩) = k)
      ∧ (∀ i : Fin (execCmds idSelf sampleCmds (emptyRoomState String)).operations.length,
          jsGet (execCmds idSelf sampleCmds (emptyRoomState String)).operationIndex
            (idSelf ((execCmds idSelf sampleCmds (emptyRoomState String)).operations.get i))
            = some i.val)
      ∧ (execCmds idSelf sampleCmds (emptyRoomState String)).operationIndex.map Prod.fst
          = (execCmds idSelf sampleCmds (emptyRoomState String)).operations.map idSelf) :=
  ⟨by decide, claimC1_index_consistency idSelf sampleCmds (by decide)⟩

/-- C2: for every room ledger and operations `a`, `b` with distinct ids,
`append(a); undo(); append(b)` leaves the undo stack empty, so a subsequent
`redo()` returns null and changes no state — `addOperation` unconditionally
empties the undo stack before pushing. -/
theorem claimC2_append_clears_redo {α : Type} (idOf : α → String)
    (s : RoomState α) (a b : α) (_hab : idOf a ≠ idOf b) :
    ((addOperation idOf (undo idOf (addOperation idOf s a).2).2 b).2.undoStack = [])
    ∧ (redo idOf (addOperation idOf (undo idOf (addOperation idOf s a).2).2 b).2
        = (none, (addOperation idOf (undo idOf (addOperation idOf s a).2).2 b).2)) :=
  ⟨rfl, rfl⟩

/-- Witness for C2 at a concrete ledger and operations. -/
theorem claimC2_witness :
    (idSelf "a" ≠ idSelf "b")
    ∧ ((addOperation idSelf (undo idSelf
          (addOperation idSelf (emptyRoomState String) "a").2).2 "b").2.undoStack = [])
    ∧ (redo idSelf (addOperation idSelf (undo idSelf
          (addOperation idSelf (emptyRoomState String) "a").2).2 "b").2
        = (none, (addOperation idSelf (undo idSelf
            (addOperation idSelf (emptyRoomState String) "a").2).2 "b").2)) := by
  refine ⟨by decide, ?_, ?_⟩
  · exact (claimC2_append_clears_redo idSelf (emptyRoomState String) "a" "b" (by decide)).1
  · exact (claimC2_append_clears_redo idSelf (emptyRoomState String) "a" "b" (by decide)).2

/-- C3: `append(a); undo(); redo()` restores the operations sequence and the
undo stack exactly, and the id-to-position index as a mapping; starting from
the empty ledger the resulting log is exactly `[a]`. -/
theorem claimC3_undo_redo_roundtrip {α : Type} (idOf : α → String)
    (s : RoomState α) (a : α) :
    ((redo idOf (undo idOf (addOperation idOf s a).2).2).2.operations
        = (addOperation idOf s a).2.operations)
    ∧ ((redo idOf (undo idOf (addOperation idOf s a).2).2).2.undoStack
        = (addOperation idOf s a).2.undoStack)
    ∧ (∀ k, jsGet (redo idOf (undo idOf (addOperation idOf s a).2).2).2.operationIndex k
        = jsGet (addOperation idOf s a).2.operationIndex k)
    ∧ ((redo idOf (undo idOf (addOperation idOf (emptyRoomState α) a).2).2).2.operations
        = [a]) := by
  have key : ∀ s' : RoomState α,
      (redo idOf (undo idOf (addOperation idOf s' a).2).2).2
        = ⟨s'.operations ++ [a],
           [],
           jsSet (jsDelete (jsSet s'.operationIndex (idOf a)
               ((s'.operations ++ [a]).length - 1)) (idOf a))
             (idOf a) ((s'.operations ++ [a]).length - 1)⟩ := by
    intro s'
    have hu : (undo idOf (addOperation idOf s' a).2).2
        = ⟨s'.operations,
           [a],
           jsDelete (jsSet s'.operationIndex (idOf a)
             ((s'.operations ++ [a]).length - 1)) (idOf a)⟩ := by
      show (undo idOf ⟨s'.operations ++ [a], [],
          jsSet s'.operationIndex (idOf a) ((s'.operations ++ [a]).length - 1)⟩).2 = _
      simp only [undo, List.getLast?_concat, List.dropLast_concat, List.nil_append]
    rw [hu]
    rfl
  refine ⟨?_, ?_, ?_, ?_⟩
  · rw [key s]
    rfl
  · rw [key s]
    rfl
  · intro k
    have haddIdx : (addOperation idOf s a).2.operationIndex
        = jsSet s.operationIndex (idOf a) ((s.operations ++ [a]).length - 1) := rfl
    rw [key s, haddIdx]
    by_cases hk : k = idOf a
    · subst hk
      rw [jsGet_jsSet_self, jsGet_jsSet_self]
    · rw [jsGet_jsSet_ne _ _ hk, jsGet_jsDelete_ne _ hk, jsGet_jsSet_ne _ _ hk]
  · rw [key (emptyRoomState α)]
    rfl

/-- C7: undo on a ledger with an empty log is a state-preserving null result
and the authority broadcasts nothing for it; redo with an empty undo stack
likewise. -/
theorem claimC7_empty_noop :
    (∀ (α : Type) (idOf : α → String) (s : RoomState α),
      s.operations = [] → undo idOf s = (none, s))
    ∧ (∀ (α : Type) (idOf : α → String) (s : RoomState α),
      s.undoStack = [] → redo idOf s = (none, s))
    ∧ (∀ s : RoomState JSVal, s.operations = [] → handleUndo s = (s, []))
    ∧ (∀ s : RoomState JSVal, s.undoStack = [] → handleRedo s = (s, [])) := by
  refine ⟨?_, ?_, ?_, ?_⟩
  · intro α idOf s h
    simp [undo, h]
  · intro α idOf s h
    simp [redo, h]
  · intro s h
    have hnone : undo jsIdOf s = (none, s) := by simp [undo, h]
    simp [handleUndo, hnone]
  · intro s h
    have hnone : redo jsIdOf s = (none, s) := by simp [redo, h]
    simp [handleRedo, hnone]

/-- Witness for C7 at the empty room state. -/
theorem claimC7_witness :
    ((emptyRoomState String).operations = []
      ∧ undo idSelf (emptyRoomState String) = (none, emptyRoomState String))
    ∧ ((emptyRoomState String).undoStack = []
      ∧ redo idSelf (emptyRoomState String) = (none, emptyRoomState String))
    ∧ ((emptyRoomState JSVal).operations = []
      ∧ handleUndo (emptyRoomState JSVal) = (emptyRoomState JSVal, []))
    ∧ ((emptyRoomState JSVal).undoStack = []
      ∧ handleRedo (emptyRoomState JSVal) = (emptyRoomState JSVal, [])) :=
  ⟨⟨rfl, claimC7_empty_noop.1 String idSelf _ rfl⟩,
   ⟨rfl, claimC7_empty_noop.2.1 String idSelf _ rfl⟩,
   ⟨rfl, claimC7_empty_noop.2.2.1 _ rfl⟩,
   ⟨rfl, claimC7_empty_noop.2.2.2 _ rfl⟩⟩

/-- C8: on any reachable ledger state, removing an id absent from the index is
a no-op, removal is idempotent, and removing a present id deletes exactly the
operation at its indexed position, rebuilds the index from the shortened log,
and shifts the indexed position of every later operation down by one. -/
theorem claimC8_idempotent_removal {α : Type} (idOf : α → String)
    (cs : List (Cmd α)) (x : String) (s : RoomState α)
    (hreach : s = execCmds idOf cs (emptyRoomState α))
    (hnodup : (addIds idOf cs).Nodup) :
    (jsGet s.operationIndex x = none → removeOperation idOf s x = s)
    ∧ (removeOperation idOf (removeOperation idOf s x) x = removeOperation idOf s x)
    ∧ (∀ p, jsGet s.operationIndex x = some p →
        ∃ hp : p < s.operations.length,
          idOf (s.operations.get ⟨p, hp⟩) = x
          ∧ (removeOperation idOf s x).operations = s.operations.eraseIdx p
          ∧ (removeOperation idOf s x).operationIndex
              = rebuildIndex idOf (s.operations.eraseIdx p)
          ∧ (∀ i : Fin s.operations.length, p < i.val →
              jsGet (removeOperation idOf s x).operationIndex
                (idOf (s.operations.get i)) = some (i.val - 1))) := by
  have hinv : LedgerInv idOf s := hreach ▸ execCmds_inv_empty idOf cs hnodup
  refine ⟨removeOperation_not_found idOf s x, removeOperation_idem idOf hinv x, ?_⟩
  intro p hget
  obtain ⟨hp, hid, hops, hidx, -⟩ := removeOperation_found idOf hinv hget
  exact ⟨hp, hid, hops, hidx, fun i hpi => removeOperation_shift idOf hinv hget i hpi⟩

/-- C4 counterexample: at the record whose stroke width is `NaN`,
`validateDrawingData` accepts although the stroke width is not a finite number
inside `[1, 50]`, so the claimed acceptance condition is not equivalent to the
implemented predicate. -/
theorem claimC4_counterexample :
    validateDrawingData nanWidthRecord = .ok true
    ∧ specAccepts nanWidthRecord = false
    ∧ ¬ ((validateDrawingData nanWidthRecord = .ok true)
          ↔ specAccepts nanWidthRecord = true) := by
  refine ⟨rfl, rfl, ?_⟩
  intro hiff
  exact Bool.false_ne_true
    ((show specAccepts nanWidthRecord = false from rfl).symm.trans (hiff.mp rfl))

/-- C4 (amended): `validateDrawingData` accepts a candidate exactly when it is
a record with a non-empty points sequence of finite numeric coordinates, a
tool in the closed enumeration, a numeric stroke width passing the JS
comparisons `¬(w < 1)` and `¬(w > 50)` (so `NaN` passes), and, unless the tool
is the eraser, a `#`+6-hex-digit color; the claim's boundary examples all
hold. -/
theorem claimC4_validation_predicate :
    (∀ d, (validateDrawingData d = .ok true) ↔ specAcceptsJS d = true)
    ∧ validateDrawingData (widthRecord (.finite 0)) = .ok false
    ∧ validateDrawingData (widthRecord (.finite 51)) = .ok false
    ∧ validateDrawingData (widthRecord (.finite 1)) = .ok true
    ∧ validateDrawingData (widthRecord (.finite 50)) = .ok true
    ∧ validateDrawingData (colorRecord "#ZZZZZZ") = .ok false
    ∧ validateDrawingData (colorRecord "#AbC123") = .ok true
    ∧ validateDrawingData eraserNoColorRecord = .ok true :=
  ⟨validate_ok_true_iff, rfl, rfl, rfl, rfl, rfl, rfl, rfl⟩

/-- C5: an accepted draw is broadcast (as the stamped operation) to the
sender's room excluding the sender; an effective undo, redo and every clear
are broadcast to the whole room including the sender, carrying respectively
the removed operation's id, the full reinstated operation, and no payload. -/
theorem claimC5_broadcast_targeting :
    (∀ senderId now rand (s : RoomState JSVal) data s' emits,
      validateDrawingData data = .ok true →
      handleDraw senderId now rand s data = .ok (s', emits) →
      emits = [Emit.toRoomExceptSender "draw" [stampOperation senderId now rand data]])
    ∧ (∀ (s : RoomState JSVal) op s',
        undo jsIdOf s = (some op, s') →
        handleUndo s
          = (s', [Emit.toRoomAll "undo" [.obj [("operationId", jsAccess op "id")]]]))
    ∧ (∀ (s : RoomState JSVal) op s',
        redo jsIdOf s = (some op, s') →
        handleRedo s = (s', [Emit.toRoomAll "redo" [.obj [("operation", op)]]]))
    ∧ (∀ s : RoomState JSVal,
        handleClearCanvas s = (clearState s, [Emit.toRoomAll "clear-canvas" []])) := by
  refine ⟨?_, ?_, ?_, ?_⟩
  · intro senderId now rand s data s' emits hval hdraw
    rw [handleDraw_accepted senderId now rand s data hval] at hdraw
    have hpair := Except.ok.inj hdraw
    rw [Prod.mk.injEq] at hpair
    exact hpair.2.symm
  · intro s op s' hundo
    simp [handleUndo, hundo]
  · intro s op s' hredo
    simp [handleRedo, hredo]
  · intro s
    rfl

/-- Witness for C5 on concrete draw/undo/redo/clear intents. -/
theorem claimC5_witness :
    (validateDrawingData validBrushRecord = .ok true
      ∧ handleDraw "alice" 7 "r" (emptyRoomState JSVal) validBrushRecord
          = .ok ((addOperation jsIdOf (emptyRoomState JSVal)
                   (stampOperation "alice" 7 "r" validBrushRecord)).2,
                 [Emit.toRoomExceptSender "draw"
                   [stampOperation "alice" 7 "r" validBrushRecord]])
      ∧ [Emit.toRoomExceptSender "draw" [stampOperation "alice" 7 "r" validBrushRecord]]
          = [Emit.toRoomExceptSender "draw" [stampOperation "alice" 7 "r" validBrushRecord]])
    ∧ (undo jsIdOf sampleRoom = (some sampleOp, ⟨[], [sampleOp], []⟩)
      ∧ handleUndo sampleRoom
          = (⟨[], [sampleOp], []⟩,
             [Emit.toRoomAll "undo" [.obj [("operationId", jsAccess sampleOp "id")]]]))
    ∧ (redo jsIdOf sampleRoomUndone = (some sampleOp, ⟨[sampleOp], [], [("op-1", 0)]⟩)
      ∧ handleRedo sampleRoomUndone
          = (⟨[sampleOp], [], [("op-1", 0)]⟩,
             [Emit.toRoomAll "redo" [.obj [("operation", sampleOp)]]]))
    ∧ handleClearCanvas sampleRoom
        = (clearState sampleRoom, [Emit.toRoomAll "clear-canvas" []]) :=
  ⟨⟨rfl, handleDraw_accepted "alice" 7 "r" (emptyRoomState JSVal) validBrushRecord rfl,
     claimC5_broadcast_targeting.1 "alice" 7 "r" (emptyRoomState JSVal) validBrushRecord
       _ _ rfl (handleDraw_accepted "alice" 7 "r" (emptyRoomState JSVal) validBrushRecord rfl)⟩,
   ⟨rfl, claimC5_broadcast_targeting.2.1 sampleRoom sampleOp _ rfl⟩,
   ⟨rfl, claimC5_broadcast_targeting.2.2.1 sampleRoomUndone sampleOp _ rfl⟩,
   claimC5_broadcast_targeting.2.2.2 sampleRoom⟩

/-- C6: a draw payload rejected by validation leaves the room ledger
unchanged, broadcasts nothing, and surfaces no error (the handler returns
normally with no emits). -/
theorem claimC6_malformed_draw_dropped (senderId : String) (now : Int) (rand : String)
    (s : RoomState JSVal) (data : JSVal)
    (hval : validateDrawingData data = .ok false) :
    handleDraw senderId now rand s data = .ok (s, []) := by
  simp [handleDraw, hval]

/-- Witness for C6 at a concrete rejected payload. -/
theorem claimC6_witness :
    validateDrawingData .null = .ok false
    ∧ handleDraw "alice" 7 "r" sampleRoom .null = .ok (sampleRoom, []) :=
  ⟨rfl, claimC6_malformed_draw_dropped "alice" 7 "r" sampleRoom .null rfl⟩

/-- C9: every accepted draw is stored and broadcast with authority-assigned
`userId` (the sender's connection id), `timestamp` and `id` (generated at
ingestion), overwriting any client-supplied values of those fields; the
assigned identity fields do not depend on the payload at all, so two accepted
payloads differing only in client-supplied identity fields receive the same
authority-assigned identity fields. -/
theorem claimC9_authority_stamping :
    (∀ senderId now rand (s : RoomState JSVal) data s' emits,
      handleDraw senderId now rand s data = .ok (s', emits) →
      validateDrawingData data = .ok true →
      ∃ op, s'.operations = s.operations ++ [op]
        ∧ emits = [Emit.toRoomExceptSender "draw" [op]]
        ∧ jsAccess op "userId" = .str senderId
        ∧ jsAccess op "timestamp" = .num (.finite (now : ℚ))
        ∧ jsAccess op "id" = .str (genOpId senderId now rand))
    ∧ (∀ senderId now rand d₁ d₂,
        jsAccess (stampOperation senderId now rand d₁) "userId"
            = jsAccess (stampOperation senderId now rand d₂) "userId"
        ∧ jsAccess (stampOperation senderId now rand d₁) "timestamp"
            = jsAccess (stampOperation senderId now rand d₂) "timestamp"
        ∧ jsAccess (stampOperation senderId now rand d₁) "id"
            = jsAccess (stampOperation senderId now rand d₂) "id") := by
  constructor
  · intro senderId now rand s data s' emits hdraw hval
    rw [handleDraw_accepted senderId now rand s data hval] at hdraw
    have hpair := Except.ok.inj hdraw
    rw [Prod.mk.injEq] at hpair
    refine ⟨stampOperation senderId now rand data, ?_, hpair.2.symm, ?_, ?_, ?_⟩
    · rw [← hpair.1]
      rfl
    · exact stampOperation_userId senderId now rand data
    · exact stampOperation_timestamp senderId now rand data
    · exact stampOperation_id senderId now rand data
  · intro senderId now rand d₁ d₂
    rw [stampOperation_userId, stampOperation_userId,
      stampOperation_timestamp, stampOperation_timestamp,
      stampOperation_id, stampOperation_id]
    exact ⟨rfl, rfl, rfl⟩

/-- Witness for C9: a payload spoofing `id`, `userId` and `timestamp` is
stamped with the authority-assigned values. -/
theorem claimC9_witness :
    (handleDraw "alice" 7 "r" (emptyRoomState JSVal) spoofedBrushRecord
        = .ok ((addOperation jsIdOf (emptyRoomState JSVal)
                 (stampOperation "alice" 7 "r" spoofedBrushRecord)).2,
               [Emit.toRoomExceptSender "draw"
                 [stampOperation "alice" 7 "r" spoofedBrushRecord]]))
    ∧ validateDrawingData spoofedBrushRecord = .ok true
    ∧ (∃ op, ((addOperation jsIdOf (emptyRoomState JSVal)
          (stampOperation "alice" 7 "r" spoofedBrushRecord)).2).operations
            = (emptyRoomState JSVal).operations ++ [op]
        ∧ [Emit.toRoomExceptSender "draw" [stampOperation "alice" 7 "r" spoofedBrushRecord]]
            = [Emit.toRoomExceptSender "draw" [op]]
        ∧ jsAccess op "userId" = .str "alice"
        ∧ jsAccess op "timestamp" = .num (.finite ((7 : Int) : ℚ))
        ∧ jsAccess op "id" = .str (genOpId "alice" 7 "r")) :=
  ⟨handleDraw_accepted "alice" 7 "r" (emptyRoomState JSVal) spoofedBrushRecord rfl, rfl,
   claimC9_authority_stamping.1 "alice" 7 "r" (emptyRoomState JSVal) spoofedBrushRecord
     _ _ (handleDraw_accepted "alice" 7 "r" (emptyRoomState JSVal) spoofedBrushRecord rfl)
     rfl⟩

/-- C10 (implicit): validation never rejects a record for carrying an unknown
extra field, and every accepted payload's fields other than `id`, `userId`
and `timestamp` are copied verbatim into the stored and broadcast
operation. -/
theorem claimC10_extra_fields_pass_through :
    (∀ (f : List (String × JSVal)) k v,
      validateDrawingData (.obj f) = .ok true →
      ¬ k ∈ (["points", "tool", "strokeWidth", "color"] : List String) →
      validateDrawingData (.obj (f ++ [(k, v)])) = .ok true)
    ∧ (∀ senderId now rand (s : RoomState JSVal) data s' emits,
        handleDraw senderId now rand s data = .ok (s', emits) →
        validateDrawingData data = .ok true →
        ∃ op, s'.operations = s.operations ++ [op]
          ∧ emits = [Emit.toRoomExceptSender "draw" [op]]
          ∧ ∀ k, k ≠ "id" → k ≠ "userId" → k ≠ "timestamp" →
              jsAccess op k = jsAccess data k) := by
  constructor
  · intro f k v hval hk
    rw [validate_ok_true_iff] at hval ⊢
    rw [specAcceptsJS_extend f k v hk]
    exact hval
  · intro senderId now rand s data s' emits hdraw hval
    obtain ⟨f, rfl⟩ := validate_obj_of_accepted hval
    rw [handleDraw_accepted senderId now rand s _ hval] at hdraw
    have hpair := Except.ok.inj hdraw
    rw [Prod.mk.injEq] at hpair
    refine ⟨stampOperation senderId now rand (.obj f), ?_, hpair.2.symm, ?_⟩
    · rw [← hpair.1]
      rfl
    · intro k h1 h2 h3
      exact stampOperation_other senderId now rand f h1 h2 h3

/-- Witness for C10: appending the unknown field `extraField` keeps the record
accepted, and the spoofed payload's non-identity fields are stored
verbatim. -/
theorem claimC10_witness :
    (validateDrawingData (.obj validBrushFields) = .ok true
      ∧ ¬ "extraField" ∈ (["points", "tool", "strokeWidth", "color"] : List String)
      ∧ validateDrawingData (.obj (validBrushFields ++ [("extraField", .str "extra")]))
          = .ok true)
    ∧ (handleDraw "alice" 7 "r" (emptyRoomState JSVal) spoofedBrushRecord
        = .ok ((addOperation jsIdOf (emptyRoomState JSVal)
                 (stampOperation "alice" 7 "r" spoofedBrushRecord)).2,
               [Emit.toRoomExceptSender "draw"
                 [stampOperation "alice" 7 "r" spoofedBrushRecord]])
      ∧ validateDrawingData spoofedBrushRecord = .ok true
      ∧ ∃ op, ((addOperation jsIdOf (emptyRoomState JSVal)
            (stampOperation "alice" 7 "r" spoofedBrushRecord)).2).operations
              = (emptyRoomState JSVal).operations ++ [op]
          ∧ [Emit.toRoomExceptSender "draw"
              [stampOperation "alice" 7 "r" spoofedBrushRecord]]
              = [Emit.toRoomExceptSender "draw" [op]]
          ∧ ∀ k, k ≠ "id" → k ≠ "userId" → k ≠ "timestamp" →
              jsAccess op k = jsAccess spoofedBrushRecord k) :=
  ⟨⟨rfl, by decide,
     claimC10_extra_fields_pass_through.1 validBrushFields "extraField" (.str "extra")
       rfl (by decide)⟩,
   ⟨handleDraw_accepted "alice" 7 "r" (emptyRoomState JSVal) spoofedBrushRecord rfl, rfl,
    claimC10_extra_fields_pass_through.2 "alice" 7 "r" (emptyRoomState JSVal)
      spoofedBrushRecord _ _
      (handleDraw_accepted "alice" 7 "r" (emptyRoomState JSVal) spoofedBrushRecord rfl)
      rfl⟩⟩

/-- Witness for C8 on the concrete scenario: after `sampleCmds` the log is
`["d"]`; removing the present id `"d"` and the absent id `"zz"`. -/
theorem claimC8_witness :
    (execCmds idSelf sampleCmds (emptyRoomState String)
        = execCmds idSelf sampleCmds (emptyRoomState String))
    ∧ (addIds idSelf sampleCmds).Nodup
    ∧ ((jsGet (execCmds idSelf sampleCmds (emptyRoomState String)).operationIndex "zz" = none →
        removeOperation idSelf (execCmds idSelf sampleCmds (emptyRoomState String)) "zz"
          = execCmds idSelf sampleCmds (emptyRoomState String))
      ∧ (removeOperation idSelf
          (removeOperation idSelf (execCmds idSelf sampleCmds (emptyRoomState String)) "zz") "zz"
          = removeOperation idSelf (execCmds idSelf sampleCmds (emptyRoomState String)) "zz")
      ∧ (∀ p, jsGet (execCmds idSelf sampleCmds (emptyRoomState String)).operationIndex "zz"
            = some p →
          ∃ hp : p < (execCmds idSelf sampleCmds (emptyRoomState String)).operations.length,
            idSelf ((execCmds idSelf sampleCmds (emptyRoomState String)).operations.get
              ⟨p, hp⟩) = "zz"
            ∧ (removeOperation idSelf
                (execCmds idSelf sampleCmds (emptyRoomState String)) "zz").operations
                = (execCmds idSelf sampleCmds (emptyRoomState String)).operations.eraseIdx p
            ∧ (removeOperation idSelf
                (execCmds idSelf sampleCmds (emptyRoomState String)) "zz").operationIndex
                = rebuildIndex idSelf
                    ((execCmds idSelf sampleCmds (emptyRoomState String)).operations.eraseIdx p)
            ∧ (∀ i : Fin (execCmds idSelf sampleCmds (emptyRoomState String)).operations.length,
                p < i.val →
                jsGet (removeOperation idSelf
                    (execCmds idSelf sampleCmds (emptyRoomState String)) "zz").operationIndex
                  (idSelf ((execCmds idSelf sampleCmds (emptyRoomState String)).operations.get i))
                  = some (i.val - 1)))) :=
  ⟨rfl, by decide,
    claimC8_idempotent_removal idSelf sampleCmds "zz" _ rfl (by decide)⟩

end InkSync
